import Mathlib

/-!
Verification of the Infinite_Buffer repository: a shallow embedding of its
producer/consumer buffers and ticket lock, with theorems settling the spec's
claims about them.

The repository contains two C++ programs:
* `InfiniteBuffer.cpp` — an unbounded singly-linked buffer.  `produce` writes
  into the node at `head`, links a freshly allocated empty node behind it and
  advances `head`; `consume` waits until the node at `tail` is `filled`, reads
  its value, unlinks and deletes it.
* `src/FiniteBuffer.cpp` — a bounded buffer realised as a circular linked list
  of `BUFFER_SIZE = 10` pre-allocated nodes.  `produce` waits until the node at
  `head` is unfilled, fills it and advances `head`; `consume` waits until the
  node at `tail` is filled, clears its flag and advances `tail`.
Both use a `TicketLock` built from two `atomic<int>` counters.

Each operation's body runs under the relevant lock, so a completed operation is
modelled as one atomic step on the buffer state; an arbitrary thread
interleaving is an arbitrary sequence of such steps, with a step that is not
enabled representing a blocked (waiting) call.
-/

namespace InfiniteBuffer

/-- One linked-list node, from `struct Node { int data; bool filled; Node* next; }`.
The `next` pointer is represented by adjacency in a Lean list. -/
structure Node where
  data : Int
  filled : Bool
deriving DecidableEq, Repr

/-- The default constructor `Node() : data(0), filled(false), next(nullptr)`. -/
def Node.new : Node := ⟨0, false⟩

/-- State of the unbounded `LinkedListBuffer` of `InfiniteBuffer.cpp`.
`body` lists the nodes from the one `tail` points to up to, but not including,
the node `head` points to; `headNode` is the node at `head` (the producer write
position).  The chain in memory is `body ++ [headNode]`, reflecting that `head`
is always a valid pointer (the constructor allocates the first node). -/
structure Ubuf where
  body : List Node
  headNode : Node
deriving DecidableEq, Repr

/-- The constructor `LinkedListBuffer()`: one fresh node, `head = tail`. -/
def Ubuf.init : Ubuf := ⟨[], Node.new⟩

/-- The node `tail` points to: the first of `body`, or the head node itself
when `tail == head`. -/
def Ubuf.tailNode (s : Ubuf) : Node :=
  match s.body with
  | n :: _ => n
  | [] => s.headNode

/-- `LinkedListBuffer::produce` (the buffer mutation under the producer lock):
`head->data = item; Node* new_node = new Node(); head->next = new_node;
head->filled = true; head = new_node;`.  It has no capacity predicate and is a
total function of the state. -/
def Ubuf.produce (s : Ubuf) (item : Int) : Ubuf :=
  { body := s.body ++ [{ s.headNode with data := item, filled := true }],
    headNode := Node.new }

/-- `LinkedListBuffer::consume`: the consumer waits on `tail->filled`
(`cv_not_empty.wait(lock, [&]{ return tail->filled; })`), then reads
`tail->data`, clears the flag, advances `tail = tail->next` and deletes the old
node.  `none` models a call that has not completed (the wait predicate is
false); the branch where `tail == head` yet the node is filled is also `none`
(there `tail->next` is still null — the state is unreachable, see the sentinel
theorems). -/
def Ubuf.consume (s : Ubuf) : Option (Int × Ubuf) :=
  if s.tailNode.filled then
    match s.body with
    | n :: rest => some (n.data, ⟨rest, s.headNode⟩)
    | [] => none
  else none

/-- One completed buffer operation, tagged with the id of the thread that
performed it (ids only flow into the event log; the buffer ignores them). -/
inductive Op where
  | produce (item : Int) (producerId : Nat)
  | consume (consumerId : Nat)
deriving DecidableEq, Repr

/-- Run a sequence of completed operations on the unbounded buffer, returning
the final state and the consumed values in return order.  A `consume` that is
not enabled (would still be waiting) makes the whole sequence unrealisable
(`none`); `produce` is always enabled. -/
def runOps : Ubuf → List Op → Option (Ubuf × List Int)
  | s, [] => some (s, [])
  | s, Op.produce v _ :: rest => runOps (s.produce v) rest
  | s, Op.consume _ :: rest =>
    s.consume.bind fun p => (runOps p.2 rest).map fun q => (q.1, p.1 :: q.2)

/-- The values produced by a sequence of operations, in production order. -/
def producedOf (ops : List Op) : List Int :=
  ops.filterMap fun op =>
    match op with
    | Op.produce v _ => some v
    | Op.consume _ => none

/-- Number of produce operations in a sequence. -/
def produceCount (ops : List Op) : Nat := (producedOf ops).length

/-- Number of consume operations in a sequence. -/
def consumeCount (ops : List Op) : Nat :=
  ops.countP fun op =>
    match op with
    | Op.consume _ => true
    | _ => false

/-- The values currently buffered (not yet consumed), oldest first. -/
def Ubuf.bufferedVals (s : Ubuf) : List Int := s.body.map Node.data

/-- Number of live nodes of the chain (`body` plus the write-position node). -/
def Ubuf.nodeCount (s : Ubuf) : Nat := s.body.length + 1

/-- The structural invariant of the chain: every node before the write
position is filled, and the write-position node is unfilled. -/
def Ubuf.Wf (s : Ubuf) : Prop :=
  (∀ n ∈ s.body, n.filled = true) ∧ s.headNode.filled = false

theorem Ubuf.wf_init : Ubuf.init.Wf := by
  constructor
  · intro n hn; simp [Ubuf.init] at hn
  · rfl

/-- Core run lemma: starting from a well-formed state, an accepted run keeps
the state well-formed, and the produced values extend the buffered ones by
exactly the consumed values followed by the still-buffered ones; moreover the
number of consumed values equals the number of consume operations. -/
theorem runOps_spec (ops : List Op) :
    ∀ (s s' : Ubuf) (cs : List Int), runOps s ops = some (s', cs) → s.Wf →
      s'.Wf ∧ s.bufferedVals ++ producedOf ops = cs ++ s'.bufferedVals ∧
        cs.length = consumeCount ops := by
  induction ops with
  | nil =>
    intro s s' cs h hwf
    simp only [runOps] at h
    obtain ⟨rfl, rfl⟩ := by
      have := h
      simp only [Option.some.injEq, Prod.mk.injEq] at this
      exact this
    refine ⟨hwf, by simp [producedOf], by simp [consumeCount]⟩
  | cons op rest ih =>
    intro s s' cs h hwf
    cases op with
    | produce v pid =>
      simp only [runOps] at h
      have hwf' : (s.produce v).Wf := by
        constructor
        · intro n hn
          simp only [Ubuf.produce, List.mem_append, List.mem_singleton] at hn
          rcases hn with hn | rfl
          · exact hwf.1 n hn
          · rfl
        · rfl
      obtain ⟨h1, h2, h3⟩ := ih (s.produce v) s' cs h hwf'
      refine ⟨h1, ?_, ?_⟩
      · have hb : (s.produce v).bufferedVals = s.bufferedVals ++ [v] := by
          simp [Ubuf.produce, Ubuf.bufferedVals]
        rw [hb] at h2
        have hp : producedOf (Op.produce v pid :: rest) = v :: producedOf rest := by
          simp [producedOf]
        rw [hp, ← h2]
        simp
      · have : consumeCount (Op.produce v pid :: rest) = consumeCount rest := by
          simp [consumeCount]
        rw [this]; exact h3
    | consume cid =>
      simp only [runOps] at h
      cases hcons : s.consume with
      | none => rw [hcons] at h; exact absurd h (by simp)
      | some p =>
        obtain ⟨v, s₁⟩ := p
        rw [hcons] at h
        simp only [Option.some_bind] at h
        cases hrun : runOps s₁ rest with
        | none => rw [hrun] at h; exact absurd h (by simp)
        | some q =>
          obtain ⟨sf, cs₁⟩ := q
          rw [hrun] at h
          simp only [Option.bind_some, Option.map_some', Option.some.injEq,
            Prod.mk.injEq] at h
          obtain ⟨rfl, rfl⟩ := h
          -- unpack what consume did
          simp only [Ubuf.consume] at hcons
          by_cases hfill : s.tailNode.filled
          · rw [if_pos hfill] at hcons
            cases hbody : s.body with
            | nil => rw [hbody] at hcons; exact absurd hcons (by simp)
            | cons n rest' =>
              rw [hbody] at hcons
              simp only [Option.some.injEq, Prod.mk.injEq] at hcons
              obtain ⟨rfl, rfl⟩ := hcons
              have hwf₁ : Ubuf.Wf ⟨rest', s.headNode⟩ := by
                refine ⟨fun m hm => hwf.1 m ?_, hwf.2⟩
                rw [hbody]; exact List.mem_cons_of_mem _ hm
              obtain ⟨h1, h2, h3⟩ := ih _ sf cs₁ hrun hwf₁
              refine ⟨h1, ?_, ?_⟩
              · have hbuf : s.bufferedVals = n.data :: (Ubuf.bufferedVals ⟨rest', s.headNode⟩) := by
                  simp [Ubuf.bufferedVals, hbody]
                have hp : producedOf (Op.consume cid :: rest) = producedOf rest := by
                  simp [producedOf]
                rw [hbuf, hp, List.cons_append, h2]
                simp
              · have : consumeCount (Op.consume cid :: rest) = consumeCount rest + 1 := by
                  simp [consumeCount]
                rw [this]
                simp [h3]
          · rw [if_neg hfill] at hcons
            exact absurd hcons (by simp)

/-- FIFO for the unbounded chain: for any realisable interleaving of
completed produce and consume operations in which every produced value is also
consumed (produce and consume counts agree, and `runOps` only accepts a consume
once its value has been produced), the consumed values, in return order, equal
the produced values in production order, regardless of the producing or
consuming thread ids. -/
theorem unbounded_fifo (ops : List Op) (s : Ubuf) (cs : List Int)
    (h : runOps Ubuf.init ops = some (s, cs))
    (hdrained : consumeCount ops = produceCount ops) :
    cs = producedOf ops := by
  obtain ⟨hwf, heq, hlen⟩ := runOps_spec ops Ubuf.init s cs h Ubuf.wf_init
  have hinit : Ubuf.init.bufferedVals = [] := rfl
  rw [hinit, List.nil_append] at heq
  have hlens : (producedOf ops).length = cs.length + s.bufferedVals.length := by
    rw [heq, List.length_append]
  have hempty : s.bufferedVals.length = 0 := by
    have : produceCount ops = (producedOf ops).length := rfl
    omega
  have : s.bufferedVals = [] := List.length_eq_zero.mp hempty
  rw [this, List.append_nil] at heq
  exact heq.symm

/-- `unbounded_fifo` exercised at a concrete interleaving: two producers and
two consumers, fully drained. -/
theorem unbounded_fifo_witness :
    ∃ s : Ubuf, runOps Ubuf.init
        [Op.produce 5 1, Op.produce 7 2, Op.consume 1, Op.consume 3] =
        some (s, [5, 7]) ∧
      ([5, 7] : List Int) = producedOf
        [Op.produce 5 1, Op.produce 7 2, Op.consume 1, Op.consume 3] := by
  refine ⟨⟨[], Node.new⟩, by decide, ?_⟩
  exact unbounded_fifo
    [Op.produce 5 1, Op.produce 7 2, Op.consume 1, Op.consume 3]
    ⟨[], Node.new⟩ [5, 7] (by decide) (by decide)

/-- C3: after every realisable sequence of completed operations on the
unbounded buffer, the chain ends in exactly one trailing unfilled sentinel
(every node before the write position is filled, the write-position node is
not), the live node count equals (produced − consumed) + 1, and once
everything produced has been consumed exactly one node remains. -/
theorem unbounded_chain_invariant (ops : List Op) (s : Ubuf) (cs : List Int)
    (h : runOps Ubuf.init ops = some (s, cs)) :
    ((∀ n ∈ s.body, n.filled = true) ∧ s.headNode.filled = false) ∧
      s.nodeCount = produceCount ops - consumeCount ops + 1 ∧
      consumeCount ops ≤ produceCount ops ∧
      (consumeCount ops = produceCount ops → s.nodeCount = 1) := by
  obtain ⟨hwf, heq, hlen⟩ := runOps_spec ops Ubuf.init s cs h Ubuf.wf_init
  have hinit : Ubuf.init.bufferedVals = [] := rfl
  rw [hinit, List.nil_append] at heq
  have hlens : (producedOf ops).length = cs.length + s.bufferedVals.length := by
    rw [heq, List.length_append]
  have hbody : s.bufferedVals.length = s.body.length := by
    simp [Ubuf.bufferedVals]
  have hpc : produceCount ops = (producedOf ops).length := rfl
  refine ⟨hwf, ?_, ?_, ?_⟩
  · simp only [Ubuf.nodeCount]; omega
  · omega
  · intro hdrain; simp only [Ubuf.nodeCount]; omega

/-- Closed witness for `unbounded_chain_invariant`: three produces and one
consume leave 2 buffered values, hence 3 live nodes with an unfilled tail
sentinel. -/
theorem unbounded_chain_invariant_witness :
    ∃ s : Ubuf, runOps Ubuf.init
        [Op.produce 1 1, Op.produce 2 1, Op.consume 1, Op.produce 3 2] =
        some (s, [1]) ∧ s.headNode.filled = false ∧ s.nodeCount = 3 := by
  refine ⟨⟨[⟨2, true⟩, ⟨3, true⟩], Node.new⟩, by decide, ?_, by decide⟩
  exact (unbounded_chain_invariant
    [Op.produce 1 1, Op.produce 2 1, Op.consume 1, Op.produce 3 2]
    ⟨[⟨2, true⟩, ⟨3, true⟩], Node.new⟩ [1] (by decide)).1.2

/-- C9: in every reachable state of the unbounded buffer the write-position
node (`head`) is unfilled outside the produce critical section; hence whenever
the node at `tail` is filled, `tail` is distinct from `head`
(the body between them is nonempty), and a completed consume neither reads,
empties nor deletes the head sentinel: it removes a body node and leaves the
head node untouched. -/
theorem unbounded_consume_spares_sentinel (ops : List Op) (s : Ubuf)
    (cs : List Int) (h : runOps Ubuf.init ops = some (s, cs)) :
    s.headNode.filled = false ∧
      (s.tailNode.filled = true → s.body ≠ []) ∧
      ∀ v s', s.consume = some (v, s') →
        s'.headNode = s.headNode ∧ s.body ≠ [] ∧ s'.body.length + 1 = s.body.length := by
  obtain ⟨hwf, -, -⟩ := runOps_spec ops Ubuf.init s cs h Ubuf.wf_init
  have htail : s.tailNode.filled = true → s.body ≠ [] := by
    intro hfill hnil
    have : s.tailNode = s.headNode := by simp [Ubuf.tailNode, hnil]
    rw [this, hwf.2] at hfill
    exact Bool.false_ne_true hfill
  refine ⟨hwf.2, htail, ?_⟩
  intro v s' hcons
  simp only [Ubuf.consume] at hcons
  by_cases hfill : s.tailNode.filled
  · rw [if_pos hfill] at hcons
    cases hbody : s.body with
    | nil => rw [hbody] at hcons; exact absurd hcons (by simp)
    | cons n rest' =>
      rw [hbody] at hcons
      simp only [Option.some.injEq, Prod.mk.injEq] at hcons
      obtain ⟨-, rfl⟩ := hcons
      exact ⟨rfl, by simp [hbody], by simp [hbody]⟩
  · rw [if_neg hfill] at hcons
    exact absurd hcons (by simp)

/-- Closed witness for `unbounded_consume_spares_sentinel` at the state
reached by two produces. -/
theorem unbounded_consume_spares_sentinel_witness :
    ∃ s s' : Ubuf, runOps Ubuf.init [Op.produce 4 1, Op.produce 6 2] =
        some (s, []) ∧ s.consume = some (4, s') ∧ s'.headNode = s.headNode := by
  refine ⟨⟨[⟨4, true⟩, ⟨6, true⟩], Node.new⟩, ⟨[⟨6, true⟩], Node.new⟩,
    by decide, by decide, ?_⟩
  exact ((unbounded_consume_spares_sentinel [Op.produce 4 1, Op.produce 6 2]
    ⟨[⟨4, true⟩, ⟨6, true⟩], Node.new⟩ [] (by decide)).2.2
    4 ⟨[⟨6, true⟩], Node.new⟩ (by decide)).1

/-- C5: a produce on the unbounded buffer completes from every state — its
body has no capacity predicate, so it never waits on fullness: appending a
produce to any realisable operation sequence (in particular one with an
arbitrarily large backlog and no consumer) yields a realisable sequence, and
as a single step it succeeds on every state whatsoever. -/
theorem unbounded_produce_never_blocks (v : Int) (pid : Nat) (ops : List Op)
    (h : (runOps Ubuf.init ops).isSome = true) :
    (runOps Ubuf.init (ops ++ [Op.produce v pid])).isSome = true ∧
      ∀ s : Ubuf, runOps s [Op.produce v pid] = some (s.produce v, []) := by
  constructor
  · have happ : ∀ (l : List Op) (s : Ubuf), (runOps s l).isSome = true →
        (runOps s (l ++ [Op.produce v pid])).isSome = true := by
      intro l
      induction l with
      | nil =>
        intro s _
        simp [runOps]
      | cons op rest ih =>
        intro s hs
        cases op with
        | produce w qid =>
          simp only [runOps, List.cons_append] at hs ⊢
          exact ih _ hs
        | consume cid =>
          simp only [runOps, List.cons_append] at hs ⊢
          cases hcons : s.consume with
          | none => rw [hcons] at hs; simp at hs
          | some p =>
            rw [hcons] at hs
            simp only [Option.some_bind] at hs ⊢
            cases hrun : runOps p.2 rest with
            | none => rw [hrun] at hs; simp at hs
            | some q =>
              have hne := ih p.2 (by rw [hrun]; rfl)
              cases hrun' : runOps p.2 (rest ++ [Op.produce v pid]) with
              | none => rw [hrun'] at hne; simp at hne
              | some q' => simp
    exact happ ops Ubuf.init h
  · intro s
    simp [runOps]

/-- Closed witness for `unbounded_produce_never_blocks`: after a backlog of
three produced items with no consumer active, a further produce completes. -/
theorem unbounded_produce_never_blocks_witness :
    (runOps Ubuf.init ([Op.produce 1 1, Op.produce 2 1, Op.produce 3 1] ++
      [Op.produce 4 1])).isSome = true := by
  exact (unbounded_produce_never_blocks 4 1
    [Op.produce 1 1, Op.produce 2 1, Op.produce 3 1] (by decide)).1

/-! ## TicketLock

`class TicketLock { atomic<int> next_ticket{0}; atomic<int> now_serving{0}; }`
with `lock()` performing `int my_ticket = next_ticket.fetch_add(1); while
(now_serving.load() != my_ticket) yield();` and `unlock()` performing
`now_serving.fetch_add(1)`.  The counters are 32-bit machine integers, so
`fetch_add` wraps modulo 2^32; a counter is modelled by its bit pattern, a
natural number below 2^32, with `toSigned` recovering the two's-complement
`int` value a C++ reader observes. -/

/-- 2^32, the modulus of the 32-bit `int` behind `atomic<int>`. -/
def intMod : Nat := 2 ^ 32

/-- Two's-complement signed value of a 32-bit pattern. -/
def toSigned (n : Nat) : Int :=
  if n % intMod < 2 ^ 31 then ((n % intMod : Nat) : Int)
  else ((n % intMod : Nat) : Int) - (intMod : Int)

/-- The two counters of `TicketLock`, stored as 32-bit patterns. -/
structure TicketLock where
  next_ticket : Nat
  now_serving : Nat
deriving DecidableEq, Repr

/-- Both counters are zero-initialised (`{0}`). -/
def TicketLock.init : TicketLock := ⟨0, 0⟩

/-- `next_ticket.fetch_add(1)`: returns the previous value and increments the
counter, wrapping modulo 2^32 — the ticket-issuing step of `lock()`. -/
def TicketLock.issueTicket (l : TicketLock) : Nat × TicketLock :=
  (l.next_ticket, { l with next_ticket := (l.next_ticket + 1) % intMod })

/-- The spin-exit test of `lock()`: `now_serving.load() == my_ticket`.  A
waiter whose ticket passes this test enters the critical section. -/
def TicketLock.granted (l : TicketLock) (myTicket : Nat) : Bool :=
  l.now_serving == myTicket

/-- `unlock()`: `now_serving.fetch_add(1)`, wrapping modulo 2^32. -/
def TicketLock.unlock (l : TicketLock) : TicketLock :=
  { l with now_serving := (l.now_serving + 1) % intMod }

/-- The lock after the first `k` `lock()` calls have executed their
`fetch_add` (tickets `0 .. k-1` issued), before any `unlock`. -/
def issuedAfter : Nat → TicketLock
  | 0 => TicketLock.init
  | k + 1 => ((issuedAfter k).issueTicket).2

/-- Bit pattern of the ticket obtained by the `k`-th `lock()` call (0-based
issuance order). -/
def ticketPattern (k : Nat) : Nat := ((issuedAfter k).issueTicket).1

/-- The `int` value of the `k`-th issued ticket, as a C++ reader sees it. -/
def ticketValue (k : Nat) : Int := toSigned (ticketPattern k)

/-- `unlock()` iterated `m` times. -/
def unlockIter : Nat → TicketLock → TicketLock
  | 0, l => l
  | m + 1, l => (unlockIter m l).unlock

/-- The lock state once `K` `lock()` calls have issued their tickets and the
critical section has been released `m` times. -/
def lockState (K m : Nat) : TicketLock := unlockIter m (issuedAfter K)

theorem issuedAfter_next_ticket (k : Nat) :
    (issuedAfter k).next_ticket = k % intMod := by
  induction k with
  | zero => rfl
  | succ k ih =>
    simp only [issuedAfter, TicketLock.issueTicket, ih]
    rw [Nat.mod_add_mod]

theorem ticketPattern_eq (k : Nat) : ticketPattern k = k % intMod := by
  simp [ticketPattern, TicketLock.issueTicket, issuedAfter_next_ticket]

theorem unlockIter_now_serving (m : Nat) (l : TicketLock) :
    (unlockIter m l).now_serving = if m = 0 then l.now_serving
      else (l.now_serving + m) % intMod := by
  induction m with
  | zero => rfl
  | succ m ih =>
    simp only [unlockIter, TicketLock.unlock, ih]
    cases m with
    | zero => simp
    | succ m' =>
      simp only [Nat.succ_ne_zero, if_false, if_neg (Nat.succ_ne_zero _)]
      rw [Nat.mod_add_mod, Nat.add_assoc]

theorem unlockIter_next_ticket (m : Nat) (l : TicketLock) :
    (unlockIter m l).next_ticket = l.next_ticket := by
  induction m with
  | zero => rfl
  | succ m ih => simp only [unlockIter, TicketLock.unlock, ih]

theorem issuedAfter_now_serving (k : Nat) : (issuedAfter k).now_serving = 0 := by
  induction k with
  | zero => rfl
  | succ k ih => simp only [issuedAfter, TicketLock.issueTicket, ih]

theorem lockState_now_serving (K m : Nat) :
    (lockState K m).now_serving = m % intMod := by
  rw [lockState, unlockIter_now_serving, issuedAfter_now_serving]
  cases m with
  | zero => rfl
  | succ m' =>
    rw [if_neg (Nat.succ_ne_zero _), Nat.zero_add]

theorem toSigned_of_lt {n : Nat} (h : n < 2 ^ 31) : toSigned n = (n : Int) := by
  have h2 : n < intMod := lt_of_lt_of_le h (by norm_num [intMod])
  rw [toSigned, Nat.mod_eq_of_lt h2, if_pos h]

/-- C7 counterexample: ticket values are 32-bit `int`s, so they do not grow
strictly for an arbitrary number of `lock()` calls.  The acquire of issuance
index 2^31 (coming after index 0) obtains the ticket INT_MIN, which is not
greater than the first ticket 0; and after 2^32 calls the exact bit pattern of
ticket 0 is reused. -/
theorem ticket_monotonic_counterexample :
    (0 : Nat) < 2 ^ 31 ∧ ¬ ticketValue 0 < ticketValue (2 ^ 31) ∧
      ticketPattern (2 ^ 32) = ticketPattern 0 := by
  refine ⟨by norm_num, ?_, ?_⟩
  · rw [ticketValue, ticketValue, ticketPattern_eq, ticketPattern_eq]
    norm_num [toSigned, intMod]
  · rw [ticketPattern_eq, ticketPattern_eq]
    norm_num [intMod]

/-- C7 amended: for the first 2^31 `lock()` calls on one `TicketLock`
instance, each acquire obtains a ticket value strictly greater than every
previously issued ticket of that instance (so none is reused in that range);
beyond that the 32-bit counter wraps. -/
theorem ticket_monotonic_amended (i j : Nat) (hij : i < j) (hj : j < 2 ^ 31) :
    ticketValue i < ticketValue j := by
  have hjM : j < intMod := lt_of_lt_of_le hj (by norm_num [intMod])
  have hiM : i < intMod := lt_trans hij hjM
  rw [ticketValue, ticketValue, ticketPattern_eq, ticketPattern_eq,
    Nat.mod_eq_of_lt hiM, Nat.mod_eq_of_lt hjM,
    toSigned_of_lt (lt_trans hij hj), toSigned_of_lt hj]
  exact_mod_cast hij

/-- Closed witness for `ticket_monotonic_amended`: the second ticket exceeds
the first. -/
theorem ticket_monotonic_amended_witness : ticketValue 0 < ticketValue 1 :=
  ticket_monotonic_amended 0 1 (by norm_num) (by norm_num)

/-- C4 counterexample: strict FIFO grant order fails once 2^32 + 2 `lock()`
requests contend.  After tickets of issuance indices `0 .. 2^32+1` have been
handed out and the initially admitted holder (index 0) has released once, the
spin-exit test admits the request of index 2^32 + 1 — whose 32-bit ticket
pattern collides with ticket 1 — even though the earlier request of index 2 is
still refused, so threads are not granted the lock in ticket-issuance order. -/
theorem fifo_grant_counterexample :
    (2 : Nat) < 2 ^ 32 + 1 ∧
      (lockState (2 ^ 32 + 2) 1).granted (ticketPattern 2) = false ∧
      (lockState (2 ^ 32 + 2) 1).granted (ticketPattern (2 ^ 32 + 1)) = true := by
  refine ⟨by norm_num, ?_, ?_⟩
  · rw [TicketLock.granted, lockState_now_serving, ticketPattern_eq]
    decide
  · rw [TicketLock.granted, lockState_now_serving, ticketPattern_eq]
    decide

/-- C4 amended: `acquire` obtains the current next-ticket value and increments
the counter, waiting until now-serving equals that ticket, and `release`
increments now-serving; grants therefore follow ticket issuance order provided
fewer than 2^32 requests are outstanding: while the earlier request `i` (with
`i` at least the current serving count `m`) is ahead of request `j` in a
window of width 2^32, request `j` never passes the spin-exit test, and a
pending request passes it exactly when its index is the serving count. -/
theorem fifo_grant_amended (K m i j : Nat) (hmi : m ≤ i) (hij : i < j)
    (hwin : j < m + 2 ^ 32) (_hjK : j < K) :
    ((lockState K m).granted (ticketPattern i) = true ↔ i = m) ∧
      (lockState K m).granted (ticketPattern j) = false := by
  have hpow : (2 : Nat) ^ 32 = 4294967296 := by norm_num
  have hmod : intMod = 4294967296 := by norm_num [intMod]
  rw [hpow] at hwin
  have h1 : (lockState K m).granted (ticketPattern i) =
      (m % 4294967296 == i % 4294967296) := by
    rw [TicketLock.granted, lockState_now_serving, ticketPattern_eq, hmod]
  have h2 : (lockState K m).granted (ticketPattern j) =
      (m % 4294967296 == j % 4294967296) := by
    rw [TicketLock.granted, lockState_now_serving, ticketPattern_eq, hmod]
  rw [h1, h2, beq_iff_eq, beq_eq_false_iff_ne]
  constructor
  · constructor
    · intro h; omega
    · intro h; omega
  · intro h; omega

/-- Closed witness for `fifo_grant_amended`: with three requests issued and
none served yet, request 0 is admitted and request 1 is refused. -/
theorem fifo_grant_amended_witness :
    ((lockState 3 0).granted (ticketPattern 0) = true ↔ (0 : Nat) = 0) ∧
      (lockState 3 0).granted (ticketPattern 1) = false :=
  fifo_grant_amended 3 0 0 1 (by norm_num) (by norm_num) (by norm_num)
    (by norm_num)

/-! ## Bounded buffer (`src/FiniteBuffer.cpp`)

The bounded `LinkedListBuffer` pre-allocates `BUFFER_SIZE` nodes joined into a
circular singly-linked list (node `i`'s `next` is node `(i+1) % N`), with
`head` and `tail` pointers starting on the first node.  The position of a
pointer in that cycle is recorded as an index. -/

namespace Finite

/-- `const int BUFFER_SIZE = 10;` — the fixed capacity. -/
def BUFFER_SIZE : Nat := 10

/-- State of the bounded buffer: the ring's nodes in cycle order plus the
positions of the `head` (producer write) and `tail` (consumer read)
pointers. -/
structure RingBuf where
  slots : List Node
  headIdx : Nat
  tailIdx : Nat
deriving DecidableEq, Repr

/-- The constructor: `N` default nodes linked in a circle,
`head = tail =` the first node. -/
def RingBuf.init (N : Nat) : RingBuf := ⟨List.replicate N Node.new, 0, 0⟩

/-- The bounded `produce` body under its locks:
`cv_not_full.wait(lock, [this]{ return !head->filled; });` then
`head->data = item; Node* temp = head->next; head->filled = true;
head = temp;`.  `none` models a call blocked on the wait predicate. -/
def RingBuf.produce (s : RingBuf) (item : Int) : Option RingBuf :=
  s.slots[s.headIdx]?.bind fun n =>
    if n.filled then none
    else some { s with
      slots := s.slots.set s.headIdx { n with data := item, filled := true },
      headIdx := (s.headIdx + 1) % s.slots.length }

/-- The bounded `consume` body:
`cv_not_empty.wait(lock, [this]{ return tail->filled; });` then
`int item = tail->data; tail->filled = false; tail = tail->next;`.
`none` models a call blocked on the wait predicate. -/
def RingBuf.consume (s : RingBuf) : Option (Int × RingBuf) :=
  s.slots[s.tailIdx]?.bind fun n =>
    if n.filled then
      some (n.data, { s with
        slots := s.slots.set s.tailIdx { n with filled := false },
        tailIdx := (s.tailIdx + 1) % s.slots.length })
    else none

/-- Number of filled slots: the items produced but not yet consumed. -/
def RingBuf.filledCount (s : RingBuf) : Nat := s.slots.countP (·.filled)

/-- States of the capacity-`N` buffer reachable by completed operations. -/
inductive Reachable (N : Nat) : RingBuf → Prop
  | init : Reachable N (RingBuf.init N)
  | produce {s s' : RingBuf} (v : Int) : Reachable N s →
      RingBuf.produce s v = some s' → Reachable N s'
  | consume {s s' : RingBuf} (v : Int) : Reachable N s →
      RingBuf.consume s = some (v, s') → Reachable N s'

/-- Forward distance from position `t` to position `i` on a ring of `N`
slots. -/
def ringDist (N t i : Nat) : Nat := (i + N - t) % N

theorem ringDist_eq {N t i : Nat} (ht : t < N) (hi : i < N) :
    ringDist N t i = if t ≤ i then i - t else i + N - t := by
  rcases le_or_lt t i with h | h
  · have e : i + N - t = (i - t) + N := by omega
    rw [ringDist, e, Nat.add_mod_right, Nat.mod_eq_of_lt (by omega), if_pos h]
  · have e : i + N - t < N := by omega
    rw [ringDist, Nat.mod_eq_of_lt e, if_neg (not_le.mpr h)]

theorem addMod_eq {N t d : Nat} (ht : t < N) (hd : d ≤ N) :
    (t + d) % N = if t + d < N then t + d else t + d - N := by
  rcases lt_or_ge (t + d) N with h | h
  · rw [Nat.mod_eq_of_lt h, if_pos h]
  · have e : t + d = (t + d - N) + N := by omega
    rw [if_neg (by omega)]
    conv_lhs => rw [e]
    rw [Nat.add_mod_right, Nat.mod_eq_of_lt (by omega)]

theorem ringDist_eq_iff {N t i d : Nat} (ht : t < N) (hi : i < N) (hd : d < N) :
    ringDist N t i = d ↔ i = (t + d) % N := by
  rw [ringDist_eq ht hi, addMod_eq ht (le_of_lt hd)]
  split_ifs <;> omega

theorem ringDist_offset {N t c : Nat} (ht : t < N) (hc : c < N) :
    ringDist N t ((t + c) % N) = c := by
  rw [(ringDist_eq_iff ht (Nat.mod_lt _ (by omega)) hc).mpr rfl]

theorem ringDist_succ_self {N t : Nat} (ht : t < N) :
    ringDist N ((t + 1) % N) t = N - 1 := by
  rcases lt_or_ge (t + 1) N with h | h
  · rw [Nat.mod_eq_of_lt h, ringDist_eq h ht]
    split_ifs <;> omega
  · have e : t + 1 = N := by omega
    rw [e, Nat.mod_self, ringDist_eq (by omega) ht]
    split_ifs <;> omega

theorem ringDist_shift {N t i : Nat} (ht : t < N) (hi : i < N) (hne : i ≠ t) :
    ringDist N ((t + 1) % N) i + 1 = ringDist N t i := by
  rcases lt_or_ge (t + 1) N with h | h
  · rw [Nat.mod_eq_of_lt h, ringDist_eq h hi, ringDist_eq ht hi]
    split_ifs <;> omega
  · have e : t + 1 = N := by omega
    rw [e, Nat.mod_self, ringDist_eq (by omega) hi, ringDist_eq ht hi]
    split_ifs <;> omega

/-- Replacing the element at a valid index shifts `countP` by the difference
of the old and new elements' contributions. -/
theorem countP_set_balance (p : Node → Bool) :
    ∀ (l : List Node) (i : Nat) (a b : Node), l[i]? = some a →
      (l.set i b).countP p + (if p a then 1 else 0) =
        l.countP p + (if p b then 1 else 0) := by
  intro l
  induction l with
  | nil => intro i a b h; simp at h
  | cons x xs ih =>
    intro i a b h
    cases i with
    | zero =>
      simp only [List.getElem?_cons_zero, Option.some.injEq] at h
      subst h
      simp only [List.set_cons_zero, List.countP_cons]
      cases hpa : p x <;> cases hpb : p b <;> simp [hpa, hpb]
    | succ i' =>
      simp only [List.getElem?_cons_succ] at h
      simp only [List.set_cons_succ, List.countP_cons]
      have := ih i' a b h
      cases hpx : p x <;> simp [hpx] <;> omega

/-- Inductive invariant of the ring: `N` slots, the tail cursor in range, the
head cursor exactly `filledCount` steps past the tail cursor, at most `N`
filled slots, and a slot filled exactly when its ring distance from the tail
cursor is below the filled count — the un-consumed items occupy the contiguous
ring segment starting at `tail`. -/
def RingInv (N : Nat) (s : RingBuf) : Prop :=
  s.slots.length = N ∧ s.tailIdx < N ∧
    s.headIdx = (s.tailIdx + s.filledCount) % N ∧
    s.filledCount ≤ N ∧
    ∀ i n, s.slots[i]? = some n →
      (n.filled = true ↔ ringDist N s.tailIdx i < s.filledCount)

theorem filledCount_init (N : Nat) : (RingBuf.init N).filledCount = 0 := by
  rw [RingBuf.filledCount, List.countP_eq_zero]
  intro a ha
  have : a = Node.new := List.eq_of_mem_replicate ha
  simp [this, Node.new]

theorem inv_init {N : Nat} (hN : 0 < N) : RingInv N (RingBuf.init N) := by
  refine ⟨by simp [RingBuf.init], hN, ?_, ?_, ?_⟩
  · rw [filledCount_init]
    show 0 = (0 + 0) % N
    simp
  · rw [filledCount_init]; omega
  · intro i n h
    rw [filledCount_init]
    simp only [RingBuf.init] at h
    rw [List.getElem?_replicate] at h
    by_cases hi : i < N
    · rw [if_pos hi] at h
      obtain rfl : Node.new = n := by simpa using h
      simp [Node.new]
    · rw [if_neg hi] at h
      exact absurd h (by simp)

/-- Shape of a completed bounded `produce`. -/
theorem produce_eq_some {s : RingBuf} {v : Int} {s' : RingBuf}
    (h : s.produce v = some s') :
    ∃ n, s.slots[s.headIdx]? = some n ∧ n.filled = false ∧
      s' = { s with
        slots := s.slots.set s.headIdx { n with data := v, filled := true },
        headIdx := (s.headIdx + 1) % s.slots.length } := by
  rw [RingBuf.produce] at h
  cases hget : s.slots[s.headIdx]? with
  | none => rw [hget] at h; exact absurd h (by simp)
  | some n =>
    rw [hget] at h
    simp only [Option.some_bind] at h
    by_cases hf : n.filled = true
    · rw [if_pos hf] at h; exact absurd h (by simp)
    · rw [if_neg hf] at h
      simp only [Option.some.injEq] at h
      exact ⟨n, rfl, by simpa using hf, h.symm⟩

/-- Shape of a completed bounded `consume`. -/
theorem consume_eq_some {s : RingBuf} {v : Int} {s' : RingBuf}
    (h : s.consume = some (v, s')) :
    ∃ n, s.slots[s.tailIdx]? = some n ∧ n.filled = true ∧ v = n.data ∧
      s' = { s with
        slots := s.slots.set s.tailIdx { n with filled := false },
        tailIdx := (s.tailIdx + 1) % s.slots.length } := by
  rw [RingBuf.consume] at h
  cases hget : s.slots[s.tailIdx]? with
  | none => rw [hget] at h; exact absurd h (by simp)
  | some n =>
    rw [hget] at h
    simp only [Option.some_bind] at h
    by_cases hf : n.filled = true
    · rw [if_pos hf] at h
      simp only [Option.some.injEq, Prod.mk.injEq] at h
      exact ⟨n, rfl, hf, h.1.symm, h.2.symm⟩
    · rw [if_neg hf] at h; exact absurd h (by simp)

/-- A completed produce fills exactly one more slot. -/
theorem produce_filledCount {s : RingBuf} {v : Int} {s' : RingBuf}
    (h : s.produce v = some s') : s'.filledCount = s.filledCount + 1 := by
  obtain ⟨n, hget, hnf, rfl⟩ := produce_eq_some h
  have hb := countP_set_balance (fun m => m.filled) s.slots s.headIdx n
    { n with data := v, filled := true } hget
  simp [hnf] at hb
  simp only [RingBuf.filledCount] at hb ⊢
  omega

/-- A completed consume empties exactly one slot. -/
theorem consume_filledCount {s : RingBuf} {v : Int} {s' : RingBuf}
    (h : s.consume = some (v, s')) : s'.filledCount + 1 = s.filledCount := by
  obtain ⟨n, hget, hnf, -, rfl⟩ := consume_eq_some h
  have hb := countP_set_balance (fun m => m.filled) s.slots s.tailIdx n
    { n with filled := false } hget
  simp [hnf] at hb
  simp only [RingBuf.filledCount] at hb ⊢
  omega

/-- A completed produce preserves the ring invariant. -/
theorem inv_produce {N : Nat} {s s' : RingBuf} {v : Int} (hinv : RingInv N s)
    (h : s.produce v = some s') : RingInv N s' := by
  obtain ⟨hlen, ht, hh, hc, hslot⟩ := hinv
  have hcount := produce_filledCount h
  obtain ⟨n, hget, hnf, rfl⟩ := produce_eq_some h
  have hN : 0 < N := by omega
  have hhd : s.headIdx < N := by rw [hh]; exact Nat.mod_lt _ hN
  have hd0 : ringDist N s.tailIdx s.tailIdx = 0 := by
    rw [ringDist]
    have e : s.tailIdx + N - s.tailIdx = N := by omega
    rw [e, Nat.mod_self]
  have hcN : s.filledCount < N := by
    rcases Nat.lt_or_ge s.filledCount N with h' | h'
    · exact h'
    · exfalso
      have hceq : s.filledCount = N := le_antisymm hc h'
      have hhdt : s.headIdx = s.tailIdx := by
        rw [hh, hceq, Nat.add_mod_right, Nat.mod_eq_of_lt ht]
      have hdist : ringDist N s.tailIdx s.headIdx < s.filledCount := by
        rw [hhdt, hd0, hceq]; exact hN
      have := (hslot _ _ hget).mpr hdist
      rw [hnf] at this
      exact Bool.false_ne_true this
  have hdisthead : ringDist N s.tailIdx s.headIdx = s.filledCount := by
    rw [hh]; exact ringDist_offset ht hcN
  refine ⟨by simpa using hlen, ht, ?_, ?_, ?_⟩
  · show (s.headIdx + 1) % s.slots.length = _ % N
    rw [hcount, hlen, hh, Nat.mod_add_mod, Nat.add_assoc]
  · rw [hcount]; omega
  · intro i m hm
    have hi : i < N := by
      have := (List.getElem?_eq_some.mp hm).1
      simpa [hlen] using this
    rw [hcount]
    show m.filled = true ↔ ringDist N s.tailIdx i < s.filledCount + 1
    by_cases hieq : i = s.headIdx
    · subst hieq
      rw [List.getElem?_set_self (by omega)] at hm
      obtain rfl : ({ n with data := v, filled := true } : Node) = m := by
        simpa using hm
      simp only [true_iff]
      omega
    · rw [List.getElem?_set_ne (fun e => hieq e.symm)] at hm
      have hold := hslot i m hm
      have hnd : ringDist N s.tailIdx i ≠ s.filledCount := by
        intro hd
        exact hieq (by rw [(ringDist_eq_iff ht hi hcN).mp hd, ← hh])
      constructor
      · intro hf; have := hold.mp hf; omega
      · intro hlt; exact hold.mpr (by omega)

/-- A completed consume preserves the ring invariant. -/
theorem inv_consume {N : Nat} {s : RingBuf} {v : Int} {s' : RingBuf}
    (hinv : RingInv N s) (h : s.consume = some (v, s')) : RingInv N s' := by
  obtain ⟨hlen, ht, hh, hc, hslot⟩ := hinv
  have hcount := consume_filledCount h
  obtain ⟨n, hget, hnf, -, rfl⟩ := consume_eq_some h
  simp only [RingBuf.filledCount] at hcount
  have hfc : s.filledCount = List.countP (fun x => x.filled) s.slots := rfl
  have hN : 0 < N := by omega
  have hd0 : ringDist N s.tailIdx s.tailIdx = 0 := by
    rw [ringDist]
    have e : s.tailIdx + N - s.tailIdx = N := by omega
    rw [e, Nat.mod_self]
  have hcpos : 0 < s.filledCount := by
    have := (hslot _ _ hget).mp hnf
    omega
  refine ⟨by simpa using hlen, ?_, ?_, ?_, ?_⟩
  · show (s.tailIdx + 1) % s.slots.length < N
    rw [hlen]; exact Nat.mod_lt _ hN
  · simp only [RingBuf.filledCount]
    show s.headIdx = _ % N
    rw [hlen, Nat.mod_add_mod, hh]
    congr 1
    omega
  · simp only [RingBuf.filledCount]
    omega
  · intro i m hm
    dsimp only at hm
    simp only [RingBuf.filledCount]
    have hi : i < N := by
      have := (List.getElem?_eq_some.mp hm).1
      simpa [hlen] using this
    show m.filled = true ↔ ringDist N ((s.tailIdx + 1) % s.slots.length) i < _
    rw [hlen]
    by_cases hieq : i = s.tailIdx
    · subst hieq
      rw [List.getElem?_set_self (by omega)] at hm
      obtain rfl : ({ n with filled := false } : Node) = m := by
        simpa using hm
      simp only [Bool.false_eq_true, false_iff, not_lt]
      rw [ringDist_succ_self ht]
      omega
    · rw [List.getElem?_set_ne (fun e => hieq e.symm)] at hm
      have hold := hslot i m hm
      have hshift := ringDist_shift ht hi hieq
      constructor
      · intro hf; have := hold.mp hf; omega
      · intro hlt; exact hold.mpr (by omega)

/-- Every reachable state of a positive-capacity ring satisfies the
invariant. -/
theorem reachable_inv {N : Nat} {s : RingBuf} (h : Reachable N s) (hN : 0 < N) :
    RingInv N s := by
  induction h with
  | init => exact inv_init hN
  | produce v hr hp ih => exact inv_produce ih hp
  | consume v hr hcons ih => exact inv_consume ih hcons

theorem ringDist_self {N t : Nat} (ht : t < N) : ringDist N t t = 0 := by
  rw [ringDist]
  have e : t + N - t = N := by omega
  rw [e, Nat.mod_self]

/-- Under the ring invariant, a produce is blocked exactly on the full
buffer: the wait predicate `head->filled` holds iff the filled count is at
capacity. -/
theorem produce_blocked_iff {N : Nat} {s : RingBuf} (hinv : RingInv N s)
    (v : Int) : s.produce v = none ↔ s.filledCount = N := by
  obtain ⟨hlen, ht, hh, hc, hslot⟩ := hinv
  have hN : 0 < N := by omega
  have hhd : s.headIdx < N := by rw [hh]; exact Nat.mod_lt _ hN
  obtain ⟨n, hget⟩ : ∃ n, s.slots[s.headIdx]? = some n := by
    have hlt : s.headIdx < s.slots.length := by omega
    exact ⟨s.slots[s.headIdx], List.getElem?_eq_getElem hlt⟩
  rw [RingBuf.produce, hget]
  simp only [Option.some_bind]
  constructor
  · intro hnone
    by_cases hf : n.filled = true
    · have hdist := (hslot _ _ hget).mp hf
      rcases Nat.lt_or_ge s.filledCount N with hlt | hge
      · have : ringDist N s.tailIdx s.headIdx = s.filledCount := by
          rw [hh]; exact ringDist_offset ht hlt
        omega
      · omega
    · rw [if_neg hf] at hnone
      exact absurd hnone (by simp)
  · intro hfull
    have hhdt : s.headIdx = s.tailIdx := by
      rw [hh, hfull, Nat.add_mod_right, Nat.mod_eq_of_lt ht]
    have hf : n.filled = true := by
      apply (hslot _ _ hget).mpr
      rw [hhdt, ringDist_self ht]
      omega
    rw [if_pos hf]

/-- C2: for every reachable state of the bounded buffer at the capacity the
code fixes (`BUFFER_SIZE = 10`), at most `BUFFER_SIZE` un-consumed items
exist; a produce is blocked (does not complete its write) precisely when
`BUFFER_SIZE` items are un-consumed; and from a full buffer, a completed
consume — which empties the slot at the write position, since head and tail
coincide when full — re-enables the pending produce. -/
theorem bounded_capacity (s : RingBuf) (h : Reachable BUFFER_SIZE s)
    (v : Int) :
    s.filledCount ≤ BUFFER_SIZE ∧
      (s.produce v = none ↔ s.filledCount = BUFFER_SIZE) ∧
      (s.filledCount = BUFFER_SIZE → s.headIdx = s.tailIdx ∧
        ∀ w s', s.consume = some (w, s') → (s'.produce v).isSome = true) := by
  have hN : (0 : Nat) < BUFFER_SIZE := by norm_num [BUFFER_SIZE]
  have hinv := reachable_inv h hN
  refine ⟨hinv.2.2.2.1, produce_blocked_iff hinv v, ?_⟩
  intro hfull
  obtain ⟨hlen, ht, hh, hc, hslot⟩ := hinv
  constructor
  · rw [hh, hfull, Nat.add_mod_right, Nat.mod_eq_of_lt ht]
  · intro w s' hcons
    have hinv' : RingInv BUFFER_SIZE s' :=
      inv_consume ⟨hlen, ht, hh, hc, hslot⟩ hcons
    have hcount := consume_filledCount hcons
    have hne : ¬ s'.produce v = none := by
      intro hnone
      have := (produce_blocked_iff hinv' v).mp hnone
      omega
    cases hp : s'.produce v with
    | none => exact absurd hp hne
    | some _ => rfl

/-- Closed witness for `bounded_capacity` at the (reachable) initial state:
the buffer holds at most ten items and the first produce is not blocked. -/
theorem bounded_capacity_witness :
    (RingBuf.init BUFFER_SIZE).filledCount ≤ BUFFER_SIZE ∧
      ((RingBuf.init BUFFER_SIZE).produce 5 = none ↔
        (RingBuf.init BUFFER_SIZE).filledCount = BUFFER_SIZE) :=
  ⟨(bounded_capacity _ Reachable.init 5).1,
    (bounded_capacity _ Reachable.init 5).2.1⟩

/-- Run a sequence of completed operations on the bounded buffer, returning
the final state and the consumed values in return order; an operation whose
wait predicate is false makes the sequence unrealisable (`none`). -/
def runF : RingBuf → List Op → Option (RingBuf × List Int)
  | s, [] => some (s, [])
  | s, Op.produce v _ :: rest => (s.produce v).bind fun s' => runF s' rest
  | s, Op.consume _ :: rest =>
    s.consume.bind fun p => (runF p.2 rest).map fun q => (q.1, p.1 :: q.2)

/-- C8 (scenario A): with capacity 2, after `produce 10` and `produce 20`
complete, a third `produce 30` is blocked — the sequence without a consume in
between is unrealisable —, it completes once the first `consume` (returning
10) has run, and the full interleaving consumes exactly `[10, 20, 30]` in
that order. -/
theorem bounded_scenario_A :
    runF (RingBuf.init 2)
        [Op.produce 10 1, Op.produce 20 1, Op.produce 30 1] = none ∧
      (runF (RingBuf.init 2) [Op.produce 10 1, Op.produce 20 1, Op.consume 1,
        Op.produce 30 1]).isSome = true ∧
      (runF (RingBuf.init 2) [Op.produce 10 1, Op.produce 20 1, Op.consume 1,
        Op.produce 30 1, Op.consume 1, Op.consume 1]).map Prod.snd =
        some [10, 20, 30] := by
  decide

/-- C10: a completed bounded `consume` returns the tail slot's value, clears
only that slot's `filled` flag — leaving its `data` field and every other
slot untouched — and advances the tail cursor by one; the head cursor is
unchanged. -/
theorem bounded_consume_frame (s s' : RingBuf) (v : Int) (n : Node)
    (hget : s.slots[s.tailIdx]? = some n)
    (h : s.consume = some (v, s')) :
    v = n.data ∧
      s'.slots[s.tailIdx]? = some { n with filled := false } ∧
      (∀ i, i ≠ s.tailIdx → s'.slots[i]? = s.slots[i]?) ∧
      s'.headIdx = s.headIdx ∧
      s'.tailIdx = (s.tailIdx + 1) % s.slots.length := by
  obtain ⟨n', hget', hf, hv, rfl⟩ := consume_eq_some h
  rw [hget] at hget'
  obtain rfl : n = n' := by simpa using hget'
  refine ⟨hv, ?_, ?_, rfl, rfl⟩
  · show (s.slots.set s.tailIdx { n with filled := false })[s.tailIdx]? = _
    rw [List.getElem?_set_self (List.getElem?_eq_some.mp hget).1]
  · intro i hi
    show (s.slots.set s.tailIdx { n with filled := false })[i]? = _
    rw [List.getElem?_set_ne (Ne.symm hi)]

/-- Closed witness for `bounded_consume_frame` on a concrete two-slot state:
consuming returns 7, keeps the value 7 stored in the cleared slot, leaves the
other slot alone and does not move the head cursor. -/
theorem bounded_consume_frame_witness :
    ∃ s' : RingBuf,
      (RingBuf.mk [⟨7, true⟩, ⟨9, false⟩] 1 0).consume = some (7, s') ∧
        s'.slots[0]? = some ⟨7, false⟩ ∧ s'.slots[1]? = some ⟨9, false⟩ ∧
        s'.headIdx = 1 := by
  refine ⟨⟨[⟨7, false⟩, ⟨9, false⟩], 1, 1⟩, by decide, ?_, ?_, ?_⟩
  · exact (bounded_consume_frame ⟨[⟨7, true⟩, ⟨9, false⟩], 1, 0⟩ _ 7 ⟨7, true⟩
      (by decide) (by decide)).2.1
  · exact (bounded_consume_frame ⟨[⟨7, true⟩, ⟨9, false⟩], 1, 0⟩ _ 7 ⟨7, true⟩
      (by decide) (by decide)).2.2.1 1 (by decide)
  · exact (bounded_consume_frame ⟨[⟨7, true⟩, ⟨9, false⟩], 1, 0⟩ _ 7 ⟨7, true⟩
      (by decide) (by decide)).2.2.2.1


/-- The item stored at ring position `i` (the default is irrelevant: the
positions used always carry a node). -/
def RingBuf.slotData (s : RingBuf) (i : Nat) : Int :=
  (s.slots[i]?.getD Node.new).data

/-- The un-consumed values of the ring in FIFO order: the contents of the
`filledCount` slots starting at the tail cursor. -/
def RingBuf.bufferedVals (N : Nat) (s : RingBuf) : List Int :=
  (List.range s.filledCount).map fun r => s.slotData ((s.tailIdx + r) % N)

theorem bufferedVals_length (N : Nat) (s : RingBuf) :
    (RingBuf.bufferedVals N s).length = s.filledCount := by
  simp [RingBuf.bufferedVals]

theorem bufferedVals_init (N : Nat) :
    RingBuf.bufferedVals N (RingBuf.init N) = [] := by
  simp [RingBuf.bufferedVals, filledCount_init]

/-- A produce that completed found the buffer short of capacity. -/
theorem produce_some_lt {N : Nat} {s s' : RingBuf} {v : Int}
    (hinv : RingInv N s) (h : s.produce v = some s') : s.filledCount < N := by
  rcases Nat.lt_or_ge s.filledCount N with hlt | hge
  · exact hlt
  · exfalso
    have hfull : s.filledCount = N := le_antisymm hinv.2.2.2.1 hge
    have hnone := (produce_blocked_iff hinv v).mpr hfull
    rw [h] at hnone
    exact absurd hnone (by simp)

/-- A completed produce appends its value at the write end of the buffered
segment. -/
theorem bufferedVals_produce {N : Nat} {s s' : RingBuf} {v : Int}
    (hinv : RingInv N s) (h : s.produce v = some s') :
    RingBuf.bufferedVals N s' = RingBuf.bufferedVals N s ++ [v] := by
  have hcN := produce_some_lt hinv h
  obtain ⟨hlen, ht, hh, hc, hslot⟩ := hinv
  have hcount := produce_filledCount h
  obtain ⟨n, hget, hnf, rfl⟩ := produce_eq_some h
  have hN : 0 < N := by omega
  have hhd : s.headIdx < N := by rw [hh]; exact Nat.mod_lt _ hN
  simp only [RingBuf.bufferedVals]
  rw [hcount, List.range_succ, List.map_append]
  congr 1
  · apply List.map_congr_left
    intro r hr
    rw [List.mem_range] at hr
    have hpos : (s.tailIdx + r) % N ≠ s.headIdx := by
      intro he
      have h1 : ringDist N s.tailIdx ((s.tailIdx + r) % N) = r :=
        ringDist_offset ht (by omega)
      have h2 : ringDist N s.tailIdx s.headIdx = s.filledCount := by
        rw [hh]; exact ringDist_offset ht hcN
      rw [he, h2] at h1
      omega
    simp only [RingBuf.slotData]
    rw [List.getElem?_set_ne (fun e => hpos e.symm)]
  · simp only [List.map_cons, List.map_nil, RingBuf.slotData]
    rw [← hh, List.getElem?_set_self (by omega)]
    rfl

/-- A completed consume removes its value from the read end of the buffered
segment. -/
theorem bufferedVals_consume {N : Nat} {s : RingBuf} {v : Int} {s' : RingBuf}
    (hinv : RingInv N s) (h : s.consume = some (v, s')) :
    RingBuf.bufferedVals N s = v :: RingBuf.bufferedVals N s' := by
  obtain ⟨hlen, ht, hh, hc, hslot⟩ := hinv
  have hcount := consume_filledCount h
  obtain ⟨n, hget, hnf, hv, hs'⟩ := consume_eq_some h
  have hN : 0 < N := by omega
  have hcpos : 0 < s.filledCount := by
    have hdd := (hslot _ _ hget).mp hnf
    have hd0 := ringDist_self ht
    omega
  have hst : s'.tailIdx = (s.tailIdx + 1) % s.slots.length := by rw [hs']
  have hss : s'.slots = s.slots.set s.tailIdx { n with filled := false } := by
    rw [hs']
  obtain ⟨c', hc'⟩ : ∃ c', s.filledCount = c' + 1 :=
    ⟨s.filledCount - 1, by omega⟩
  have hfc : s'.filledCount = c' := by omega
  simp only [RingBuf.bufferedVals]
  rw [hc', hfc, List.range_succ_eq_map, List.map_cons, List.map_map]
  congr 1
  · simp only [RingBuf.slotData]
    rw [Nat.add_zero, Nat.mod_eq_of_lt ht, hget]
    exact hv.symm
  · apply List.map_congr_left
    intro r hr
    rw [List.mem_range] at hr
    have hrN : r + 1 < N := by omega
    have hpos : (s.tailIdx + (r + 1)) % N ≠ s.tailIdx := by
      intro he
      have h1 : ringDist N s.tailIdx ((s.tailIdx + (r + 1)) % N) = r + 1 :=
        ringDist_offset ht hrN
      rw [he, ringDist_self ht] at h1
      omega
    have e1 : (s'.tailIdx + r) % N = (s.tailIdx + (r + 1)) % N := by
      rw [hst, hlen, Nat.mod_add_mod]
      congr 1
      omega
    simp only [RingBuf.slotData, Function.comp, Nat.succ_eq_add_one]
    rw [e1, hss, List.getElem?_set_ne (fun e => hpos e.symm)]

/-- Run lemma for the bounded ring, mirroring `runOps_spec`: an accepted run
preserves the ring invariant, the produced values extend the buffered ones by
the consumed values followed by the still-buffered ones, and the consumed
count matches the consume operations. -/
theorem runF_spec {N : Nat} (ops : List Op) :
    ∀ (s s' : RingBuf) (cs : List Int), runF s ops = some (s', cs) →
      RingInv N s →
      RingInv N s' ∧
        RingBuf.bufferedVals N s ++ producedOf ops =
          cs ++ RingBuf.bufferedVals N s' ∧
        cs.length = consumeCount ops := by
  induction ops with
  | nil =>
    intro s s' cs h hinv
    simp only [runF] at h
    obtain ⟨rfl, rfl⟩ := by
      have := h
      simp only [Option.some.injEq, Prod.mk.injEq] at this
      exact this
    refine ⟨hinv, by simp [producedOf], by simp [consumeCount]⟩
  | cons op rest ih =>
    intro s s' cs h hinv
    cases op with
    | produce v pid =>
      simp only [runF] at h
      cases hp : s.produce v with
      | none => rw [hp] at h; exact absurd h (by simp)
      | some s₁ =>
        rw [hp] at h
        simp only [Option.some_bind] at h
        obtain ⟨h1, h2, h3⟩ := ih s₁ s' cs h (inv_produce hinv hp)
        refine ⟨h1, ?_, ?_⟩
        · rw [bufferedVals_produce hinv hp] at h2
          have hpp : producedOf (Op.produce v pid :: rest) =
              v :: producedOf rest := by
            simp [producedOf]
          rw [hpp, ← h2]
          simp
        · have : consumeCount (Op.produce v pid :: rest) = consumeCount rest := by
            simp [consumeCount]
          rw [this]; exact h3
    | consume cid =>
      simp only [runF] at h
      cases hcons : s.consume with
      | none => rw [hcons] at h; exact absurd h (by simp)
      | some p =>
        obtain ⟨v, s₁⟩ := p
        rw [hcons] at h
        simp only [Option.some_bind] at h
        cases hrun : runF s₁ rest with
        | none => rw [hrun] at h; exact absurd h (by simp)
        | some q =>
          obtain ⟨sf, cs₁⟩ := q
          rw [hrun] at h
          simp only [Option.map_some', Option.some.injEq, Prod.mk.injEq] at h
          obtain ⟨rfl, rfl⟩ := h
          obtain ⟨h1, h2, h3⟩ := ih s₁ sf cs₁ hrun (inv_consume hinv hcons)
          refine ⟨h1, ?_, ?_⟩
          · have hpp : producedOf (Op.consume cid :: rest) = producedOf rest := by
              simp [producedOf]
            rw [bufferedVals_consume hinv hcons, hpp, List.cons_append, h2]
            simp
          · have : consumeCount (Op.consume cid :: rest) =
                consumeCount rest + 1 := by
              simp [consumeCount]
            rw [this]
            simp [h3]

/-- FIFO for the bounded ring: a realisable run that consumes as many values
as it produces consumes exactly the produced values, in production order. -/
theorem runF_drained_fifo {N : Nat} (hN : 0 < N) (ops : List Op)
    {s : RingBuf} {cs : List Int}
    (h : runF (RingBuf.init N) ops = some (s, cs))
    (hdrained : consumeCount ops = produceCount ops) : cs = producedOf ops := by
  obtain ⟨hinv, heq, hlenc⟩ := runF_spec ops (RingBuf.init N) s cs h (inv_init hN)
  rw [bufferedVals_init, List.nil_append] at heq
  have hl : (producedOf ops).length =
      cs.length + (RingBuf.bufferedVals N s).length := by
    rw [heq, List.length_append]
  have hpc : produceCount ops = (producedOf ops).length := rfl
  have hempty : RingBuf.bufferedVals N s = [] := by
    have h0 : (RingBuf.bufferedVals N s).length = 0 := by omega
    exact List.length_eq_zero.mp h0
  rw [hempty, List.append_nil] at heq
  exact heq.symm


end Finite

/-- C1: on every buffer instance — the unbounded chain as well as the bounded
ring at any positive capacity (the code fixes 10) — for any realisable
interleaving of completed operations in which each value is produced exactly
once before being consumed exactly once and every produced value is consumed,
the values returned by the consume calls, in return order, equal the produced
values in production order: items transit the buffer in strict FIFO order
end-to-end, regardless of which thread produced or consumed each item. -/
theorem buffer_fifo (ops : List Op)
    (hdrained : consumeCount ops = produceCount ops) :
    (∀ s cs, runOps Ubuf.init ops = some (s, cs) → cs = producedOf ops) ∧
      ∀ N s cs, 0 < N →
        Finite.runF (Finite.RingBuf.init N) ops = some (s, cs) →
        cs = producedOf ops := by
  constructor
  · intro s cs h
    exact unbounded_fifo ops s cs h hdrained
  · intro N s cs hN h
    exact Finite.runF_drained_fifo hN ops h hdrained

/-- Closed witness for `buffer_fifo`, exercising both halves: a drained
unbounded run consuming `[5, 7]` and a drained capacity-2 bounded run
consuming `[10, 20]`, each matching its production order. -/
theorem buffer_fifo_witness :
    ([5, 7] : List Int) =
        producedOf [Op.produce 5 1, Op.produce 7 2, Op.consume 1, Op.consume 3] ∧
      ([10, 20] : List Int) =
        producedOf [Op.produce 10 1, Op.produce 20 2, Op.consume 1, Op.consume 1] := by
  constructor
  · exact (buffer_fifo [Op.produce 5 1, Op.produce 7 2, Op.consume 1, Op.consume 3]
      (by decide)).1 ⟨[], Node.new⟩ [5, 7] (by decide)
  · exact (buffer_fifo [Op.produce 10 1, Op.produce 20 2, Op.consume 1, Op.consume 1]
      (by decide)).2 2 ⟨[⟨10, false⟩, ⟨20, false⟩], 0, 0⟩ [10, 20]
      (by decide) (by decide)

/-! ## Per-call timing and the statistics totals

In both programs each `produce`/`consume` call takes three clock readings:
`request_lock_time` before trying to acquire its lock, `acquired_lock_time`
once the lock is held and the wait predicate has passed, and `end` just before
the call returns.  The event record logged for the call carries
`wait_duration = acquired_lock_time - request_lock_time` (printed as
`Waited: …ms`), while the running totals are updated with
`total_produce_time += (end - request_lock_time)` and
`total_consume_time += (end - request_lock_time)`.  Clock readings are
modelled as exact tick counts. -/

/-- The three clock readings of one completed call. -/
structure OpTiming where
  requestTime : Nat
  acquiredTime : Nat
  endTime : Nat
deriving DecidableEq, Repr

/-- `wait_duration = acquired_lock_time - request_lock_time`: the per-call
duration emitted in the call's event record. -/
def OpTiming.waited (t : OpTiming) : Nat := t.acquiredTime - t.requestTime

/-- `end - request_lock_time`: the duration added to the call's running
total. -/
def OpTiming.callDuration (t : OpTiming) : Nat := t.endTime - t.requestTime

/-- A sample is coherent when its clock readings occur in call order. -/
def OpTiming.Ordered (t : OpTiming) : Prop :=
  t.requestTime ≤ t.acquiredTime ∧ t.acquiredTime ≤ t.endTime

/-- The `+=` accumulation of one running total over the completed calls of
one kind, in completion order. -/
def totalTime (ts : List OpTiming) : Nat :=
  ts.foldl (fun acc t => acc + t.callDuration) 0

/-- The sum of the per-call durations emitted in the event records. -/
def emittedWaitSum (ts : List OpTiming) : Nat :=
  (ts.map OpTiming.waited).sum

/-- `LinkedListBuffer::Stats()`: the vector
`[total_produce_time, total_consume_time]`. -/
def Stats (produceCalls consumeCalls : List OpTiming) : List Nat :=
  [totalTime produceCalls, totalTime consumeCalls]

/-- C6 counterexample: a stats total does not equal the sum of the per-call
durations emitted in the event records.  One produce call with
`request = 0`, `acquired = 1`, `end = 3` (a coherent sample) emits the wait
duration 1 in its event, yet contributes 3 to `total_produce_time`, so
`Stats` reports `[3, 0]` while the emitted durations sum to 1. -/
theorem stats_roundtrip_counterexample :
    (OpTiming.mk 0 1 3).Ordered ∧
      Stats [OpTiming.mk 0 1 3] [] = [3, 0] ∧
      emittedWaitSum [OpTiming.mk 0 1 3] = 1 ∧
      ¬ totalTime [OpTiming.mk 0 1 3] = emittedWaitSum [OpTiming.mk 0 1 3] :=
  ⟨⟨by decide, by decide⟩, by decide, by decide, by decide⟩

theorem totalTime_eq_sum (ts : List OpTiming) :
    totalTime ts = (ts.map OpTiming.callDuration).sum := by
  rw [totalTime, List.sum_eq_foldl, List.foldl_map]

/-- C6 amended: after all operations complete, each stats total equals the
sum, over all completed calls of that kind, of that call's full duration
(request-lock time to return); the duration emitted in a call's event record
is only the wait portion (request to acquisition), so the stats totals
dominate the sums of the emitted durations instead of equalling them. -/
theorem stats_total_amended (ps cs : List OpTiming)
    (hp : ∀ t ∈ ps, t.Ordered) (hc : ∀ t ∈ cs, t.Ordered) :
    Stats ps cs = [(ps.map OpTiming.callDuration).sum,
        (cs.map OpTiming.callDuration).sum] ∧
      emittedWaitSum ps ≤ (ps.map OpTiming.callDuration).sum ∧
      emittedWaitSum cs ≤ (cs.map OpTiming.callDuration).sum := by
  refine ⟨by rw [Stats, totalTime_eq_sum, totalTime_eq_sum], ?_, ?_⟩
  · exact List.sum_le_sum fun t ht =>
      Nat.sub_le_sub_right (hp t ht).2 t.requestTime
  · exact List.sum_le_sum fun t ht =>
      Nat.sub_le_sub_right (hc t ht).2 t.requestTime

/-- Closed witness for `stats_total_amended` at one produce call and one
consume call. -/
theorem stats_total_amended_witness :
    Stats [OpTiming.mk 0 2 5] [OpTiming.mk 1 1 4] =
        [([OpTiming.mk 0 2 5].map OpTiming.callDuration).sum,
          ([OpTiming.mk 1 1 4].map OpTiming.callDuration).sum] ∧
      emittedWaitSum [OpTiming.mk 0 2 5] ≤
        ([OpTiming.mk 0 2 5].map OpTiming.callDuration).sum ∧
      emittedWaitSum [OpTiming.mk 1 1 4] ≤
        ([OpTiming.mk 1 1 4].map OpTiming.callDuration).sum :=
  stats_total_amended [OpTiming.mk 0 2 5] [OpTiming.mk 1 1 4]
    (fun t ht => by
      rcases List.mem_singleton.mp ht with rfl
      exact ⟨by decide, by decide⟩)
    (fun t ht => by
      rcases List.mem_singleton.mp ht with rfl
      exact ⟨by decide, by decide⟩)

end InfiniteBuffer
